import Mathlib

/-!
Shallow embedding of the `forge_docs` documentation server
(`src/forge_docs/{models,parser,server}.py`) and proofs about the
spec's claims.  Strings are modelled as Lean `String` (a wrapper around
`List Char`); all Python string primitives used by the code are
re-implemented below on `List Char` so that every definition is
executable and kernel-reducible.
-/

namespace Forge

/-- The characters Python's `str.strip()` (and `\s` for the ASCII range)
treats as whitespace. -/
def pySpace (c : Char) : Bool :=
  c = ' ' || c = '\t' || c = '\n' || c = '\r' || c = '\x0b' || c = '\x0c'

/-- Python `str.strip()` (ASCII whitespace). -/
def pyStrip (s : String) : String :=
  String.mk (((s.data.dropWhile pySpace).reverse.dropWhile pySpace).reverse)

/-- ASCII `str.lower()` on a single character. -/
def lowerChar (c : Char) : Char :=
  match c with
  | 'A' => 'a' | 'B' => 'b' | 'C' => 'c' | 'D' => 'd' | 'E' => 'e'
  | 'F' => 'f' | 'G' => 'g' | 'H' => 'h' | 'I' => 'i' | 'J' => 'j'
  | 'K' => 'k' | 'L' => 'l' | 'M' => 'm' | 'N' => 'n' | 'O' => 'o'
  | 'P' => 'p' | 'Q' => 'q' | 'R' => 'r' | 'S' => 's' | 'T' => 't'
  | 'U' => 'u' | 'V' => 'v' | 'W' => 'w' | 'X' => 'x' | 'Y' => 'y'
  | 'Z' => 'z' | other => other

/-- Python `str.lower()` (ASCII). -/
def pyLower (s : String) : String := String.mk (s.data.map lowerChar)

/-- Boolean list-prefix test (Python `str.startswith` on char lists). -/
def isPrefixB : List Char → List Char → Bool
  | [], _ => true
  | _ :: _, [] => false
  | a :: as, b :: bs => decide (a = b) && isPrefixB as bs

/-- Boolean contiguous-sublist test (Python `in` on strings). -/
def infixB : List Char → List Char → Bool
  | n, [] => n.isEmpty
  | n, c :: t => isPrefixB n (c :: t) || infixB n t

/-- Python substring test `needle in hay`. -/
def pyIn (needle hay : String) : Bool := infixB needle.data hay.data

/-- Python `len` on strings (character count). -/
def pyLen (s : String) : Nat := s.data.length

/-- Python slice `s[:n]`. -/
def pyTake (s : String) (n : Nat) : String := String.mk (s.data.take n)

/-- Python slice `s[n:]`. -/
def pyDrop (s : String) (n : Nat) : String := String.mk (s.data.drop n)

/-- Python `s.startswith(pre)`. -/
def pyStartsWith (s pre : String) : Bool := isPrefixB pre.data s.data

/-- Split a character list on a separator character (Python `str.split(sep)`:
always at least one, possibly empty, field). -/
def splitOnChar (sep : Char) : List Char → List (List Char)
  | [] => [[]]
  | c :: rest =>
    match splitOnChar sep rest with
    | [] => [[c]]
    | g :: gs => if c = sep then [] :: g :: gs else (c :: g) :: gs

/-- Python `s.split(sep)` for a one-character separator. -/
def pySplit (s : String) (sep : Char) : List String :=
  (splitOnChar sep s.data).map String.mk

/-- Python `sep.join(parts)`. -/
def joinWith (sep : String) : List String → String
  | [] => ""
  | [x] => x
  | x :: y :: rest => x ++ sep ++ joinWith sep (y :: rest)

/-! ## Data model (`models.py`) -/

/-- `SectionLevel` enumeration: `MAIN = 1` (`#`), `SUB = 2` (`##`),
`DETAIL = 3` (`###`). -/
inductive SectionLevel
  | MAIN | SUB | DETAIL
deriving DecidableEq, Repr

/-- The `.value` of a `SectionLevel` member. -/
def SectionLevel.value : SectionLevel → Nat
  | .MAIN => 1 | .SUB => 2 | .DETAIL => 3

/-- `SectionLevel(k)`.  The parser only ever applies this to `k ∈ {1,2,3}`
(Python would raise on other values). -/
def SectionLevel.fromValue (k : Nat) : SectionLevel :=
  if k ≤ 1 then .MAIN else if k = 2 then .SUB else .DETAIL

/-- `CodeBlock` dataclass. -/
structure CodeBlock where
  language : String
  code : String
  context_section : String
  line_number : Nat
deriving DecidableEq, Repr

/-- `CodeBlock.__str__`. -/
def CodeBlock.str (cb : CodeBlock) : String :=
  "```" ++ cb.language ++ "\n" ++ cb.code ++ "\n```"

mutual
/-- `Section` dataclass (recursive through `subsections`).  The
`subsections: List[Section]` field is represented by the mutually defined
cons-list `SectionList` (isomorphic to `List Section` via
`SectionList.toList` / `SectionList.ofList`) so that every recursive
traversal of the tree is structural and kernel-reducible. -/
inductive Section
  | mk (title : String) (level : SectionLevel) (content : String)
       (path : String) (line_number : Nat)
       (code_blocks : List CodeBlock) (subsections : SectionList)
/-- Cons-list of `Section` (see `Section`). -/
inductive SectionList
  | nil
  | cons (head : Section) (tail : SectionList)
end

def Section.title : Section → String
  | .mk t _ _ _ _ _ _ => t

def Section.level : Section → SectionLevel
  | .mk _ l _ _ _ _ _ => l

def Section.content : Section → String
  | .mk _ _ c _ _ _ _ => c

def Section.path : Section → String
  | .mk _ _ _ p _ _ _ => p

def Section.line_number : Section → Nat
  | .mk _ _ _ _ n _ _ => n

def Section.code_blocks : Section → List CodeBlock
  | .mk _ _ _ _ _ cbs _ => cbs

def Section.subsections : Section → SectionList
  | .mk _ _ _ _ _ _ subs => subs

def SectionList.toList : SectionList → List Section
  | .nil => []
  | .cons s rest => s :: rest.toList

def SectionList.ofList : List Section → SectionList
  | [] => .nil
  | s :: rest => .cons s (SectionList.ofList rest)

/-- The `subsections` field viewed as an ordinary list. -/
def Section.subs (s : Section) : List Section := s.subsections.toList

/-- A default section value (used only as a `getD` fallback). -/
def emptySection : Section := .mk "" .MAIN "" "" 0 [] .nil

/-- `APIEntry` dataclass. -/
structure APIEntry where
  name : String
  type : String
  description : String
  parameters : List (List (String × String))
  returns : Option String
  examples : List CodeBlock
  section_path : String
deriving Repr

/-- Insertion-ordered dictionary, modelling a Python `dict`. -/
def Dict (α : Type) := List (String × α)

/-- `d.get(k)` (returns `None` on a miss). -/
def dictGet {α : Type} (d : List (String × α)) (k : String) : Option α :=
  match d.find? (fun kv => decide (kv.1 = k)) with
  | some kv => some kv.2
  | none => none

/-- `d[k] = v`: replace in place if the key exists (keeping its position,
as Python dicts do), otherwise append. -/
def dictUpsert {α : Type} (d : List (String × α)) (k : String) (v : α) :
    List (String × α) :=
  match d with
  | [] => [(k, v)]
  | (k', v') :: rest =>
    if k' = k then (k, v) :: rest else (k', v') :: dictUpsert rest k v

/-- `d.keys()` in insertion order. -/
def dictKeys {α : Type} (d : List (String × α)) : List String := d.map Prod.fst

/-- `d.values()` in insertion order. -/
def dictValues {α : Type} (d : List (String × α)) : List α := d.map Prod.snd

/-- `ParsedDoc` dataclass. -/
structure ParsedDoc where
  sections : List Section
  sections_by_path : List (String × Section)
  all_code_blocks : List CodeBlock
  api_entries : List (String × APIEntry)

/-! ## `Section.get_full_content` (models.py) -/

mutual
/-- `Section.get_full_content(include_subsections=True)`:
`"#"*level + " " + title + "\n\n" + content`, then (when requested) each
subsection's full content appended after a blank line. -/
def Section.get_full_content : Section → Bool → String
  | .mk t l c _ _ _ subs, include_subsections =>
    let base := String.mk (List.replicate (SectionLevel.value l) '#') ++ " " ++ t
      ++ "\n\n" ++ c
    if include_subsections then base ++ SectionList.renderSubs subs else base
/-- The `for subsection in self.subsections:` loop of `get_full_content`:
appends `"\n\n" + subsection.get_full_content()` for each subsection. -/
def SectionList.renderSubs : SectionList → String
  | .nil => ""
  | .cons s rest => "\n\n" ++ Section.get_full_content s true ++ SectionList.renderSubs rest
end

/-! ## `ParsedDoc.search` (models.py) -/

/-- One element of the list returned by `ParsedDoc.search`. -/
structure SearchResult where
  title : String
  path : String
  preview : String
  type : String
deriving DecidableEq, Repr

/-- Does `query_lower` occur in the section's lowered title or content?
(the match condition of `ParsedDoc.search`). -/
def searchMatches (query_lower : String) (s : Section) : Bool :=
  pyIn query_lower (pyLower s.title) || pyIn query_lower (pyLower s.content)

/-- The result dict `ParsedDoc.search` appends for a matching section. -/
def searchEntry (s : Section) : SearchResult :=
  { title := s.title
    path := s.path
    preview :=
      if 200 < pyLen s.content then pyTake s.content 200 ++ "..." else s.content
    type := "section" }

/-- The `for` loop of `ParsedDoc.search`: `acc` is the `results` list in
reverse; after appending a match the loop breaks when
`len(results) >= max_results`. -/
def searchLoop (query_lower : String) (max_results : Int) :
    List Section → List SearchResult → List SearchResult
  | [], acc => acc.reverse
  | s :: rest, acc =>
    if searchMatches query_lower s then
      if max_results ≤ (((searchEntry s :: acc).length : Nat) : Int) then
        (searchEntry s :: acc).reverse
      else searchLoop query_lower max_results rest (searchEntry s :: acc)
    else searchLoop query_lower max_results rest acc

/-- `ParsedDoc.search(query, max_results=5)`. -/
def ParsedDoc.search (doc : ParsedDoc) (query : String) (max_results : Int) :
    List SearchResult :=
  searchLoop (pyLower query) max_results doc.sections []

/-! ## The parser (`parser.py`, class `ForgeDocParser`)

Python mutates `Section` objects shared between the section stack, the
roots list and parents' `subsections` lists.  The embedding mirrors this
with a flat store of `Node` records indexed by creation order: the stack
holds indices (plus the node's immutable title/level/path), mutation is
`listModify` on the store, and the `Section` tree is rebuilt from the
store's `parent` pointers when parsing finishes. -/

namespace ForgeDocParser

/-- One section record of the parser's store.  `parent = none` means the
section was appended to the top-level `self.sections` list. -/
structure Node where
  title : String
  level : Nat
  content : String
  path : String
  line_number : Nat
  code_blocks : List CodeBlock
  parent : Option Nat
deriving Repr

/-- An entry of `current_section_stack`: the index of the section in the
store plus its immutable `title`, `level.value` and `path` fields. -/
structure StackEntry where
  idx : Nat
  title : String
  level : Nat
  path : String
deriving Repr, DecidableEq

/-- Parser state during the line loop: the store of created sections, the
stack (`head` = top i.e. `stack[-1]` in Python, deepest open section), and
the document-wide `self.code_blocks` list. -/
structure PState where
  nodes : List Node
  stack : List StackEntry
  code_blocks : List CodeBlock
deriving Repr

/-- Replace the element at an index (Python in-place mutation of a shared
object). -/
def listModify {α : Type} (f : α → α) : Nat → List α → List α
  | _, [] => []
  | 0, x :: xs => f x :: xs
  | n+1, x :: xs => x :: listModify f n xs

/-- The number of leading `#` marker characters of a line. -/
def countHashes (line : String) : Nat :=
  (line.data.takeWhile (fun c => decide (c = '#'))).length

/-- `re.match(r'^(#{1,3})\s+(.+)$', line)`: `k` leading `#` markers
(`1 ≤ k ≤ 3`, a fourth marker kills the match), then at least one
whitespace character, then at least one further character.  Returns the
marker count and `group(2).strip()`, which equals `line[k:].strip()`. -/
def headerMatch (line : String) : Option (Nat × String) :=
  if 1 ≤ countHashes line ∧ countHashes line ≤ 3 then
    match line.data.drop (countHashes line) with
    | c :: _ :: _ =>
      if pySpace c then
        some (countHashes line, pyStrip (String.mk (line.data.drop (countHashes line))))
      else none
    | _ => none
  else none

/-- `line.strip().startswith('```')`. -/
def isFenceLine (line : String) : Bool := pyStartsWith (pyStrip line) "```"

/-- The scan of `_parse_code_block` for a line whose `strip()` is exactly
the closing fence: offset of the first such line in the given suffix. -/
def findClose : List String → Option Nat
  | [] => none
  | l :: ls =>
    if pyStrip l = "```" then some 0 else (findClose ls).map (· + 1)

/-- `_build_path(stack, title)`: `"/".join(titles of the stack, bottom to
top, plus the new title)`.  The Python stack is bottom-first, ours is
top-first, hence the `reverse`. -/
def build_path (stack : List StackEntry) (title : String) : String :=
  joinWith "/" ((stack.reverse.map StackEntry.title) ++ [title])

/-- The parent scan of `_add_section_to_hierarchy`: walk the stack from the
deepest entry upward (`reversed(stack)` in Python = head-first here) and
take the first entry whose level is strictly smaller; `none` (top-level
root) when the stack is empty or no entry qualifies. -/
def hierarchyParent (stack : List StackEntry) (level : Nat) : Option Nat :=
  (stack.find? (fun e => decide (e.level < level))).map StackEntry.idx

/-- The `Section(...)` record a header line creates (parser.py lines
35–41): empty content, the path built from the *unpopped* stack, and the
parent chosen by the hierarchy scan of the same unpopped stack. -/
def newNode (st : PState) (i k : Nat) (title : String) : Node :=
  { title := title, level := k, content := "", path := build_path st.stack title
    line_number := i, code_blocks := [], parent := hierarchyParent st.stack k }

/-- Processing a header line (parser.py lines 30–49): create the section
with the path built from the *unpopped* stack, attach it via the
hierarchy scan, then pop entries with `level.value >= level` and push. -/
def headerStep (st : PState) (i : Nat) (k : Nat) (title : String) : PState :=
  { nodes := st.nodes ++ [newNode st i k title]
    stack := ⟨st.nodes.length, title, k, build_path st.stack title⟩
      :: st.stack.dropWhile (fun e => decide (k ≤ e.level))
    code_blocks := st.code_blocks }

/-- Attach a finished code block to the section at store index `idx`
(mutating the shared object) and to the document-wide list. -/
def attachBlock (st : PState) (idx : Nat) (cb : CodeBlock) : PState :=
  { st with
    nodes := listModify (fun n => { n with code_blocks := n.code_blocks ++ [cb] })
      idx st.nodes
    code_blocks := st.code_blocks ++ [cb] }

/-- Processing a closed code block (parser.py lines 52–58 and 99–122):
when the stack is nonempty, set the block's `context_section` to the top
section's path and append it to that section's `code_blocks` and to the
document-wide list; when the stack is empty the block is dropped.  The
language tag is the trimmed text after the three backticks of the trimmed
opening line, defaulting to `"plaintext"` when blank. -/
def fenceStep (st : PState) (i : Nat) (line : String) (codeLines : List String) :
    PState :=
  match st.stack with
  | [] => st
  | top :: _ =>
    attachBlock st top.idx
      { language :=
          if pyStrip (pyDrop (pyStrip line) 3) = "" then "plaintext"
          else pyStrip (pyDrop (pyStrip line) 3)
        code := joinWith "\n" codeLines
        context_section := top.path
        line_number := i }

/-- Processing a content line (parser.py lines 61–62): append
`line + "\n"` to the content of the deepest open section. -/
def contentStep (st : PState) (top : StackEntry) (line : String) : PState :=
  { st with
    nodes := listModify (fun n => { n with content := n.content ++ line ++ "\n" })
      top.idx st.nodes }

/-- One iteration of the `while i < len(lines)` loop: `none` when the loop
is over, otherwise the next `i` and the next state.  A closed fence at
offset `off` after `i+1` resumes at `end_line + 1 = i+1+off+1`; an
unterminated fence sets `i = len(lines)` and then `i += 1`. -/
def parseStep (lines : List String) (i : Nat) (st : PState) :
    Option (Nat × PState) :=
  match lines.get? i with
  | none => none
  | some line =>
    match headerMatch line with
    | some (k, title) => some (i+1, headerStep st i k title)
    | none =>
      if isFenceLine line then
        match findClose (lines.drop (i+1)) with
        | some off =>
          some (i+1+off+1, fenceStep st i line ((lines.drop (i+1)).take off))
        | none => some (lines.length + 1, st)
      else
        match st.stack with
        | [] => some (i+1, st)
        | top :: _ => some (i+1, contentStep st top line)

/-! ### Rebuilding the section forest from the store -/

/-- Default-valued store lookup. -/
def nodeAt (nodes : List Node) (j : Nat) : Node :=
  (nodes.get? j).getD
    { title := "", level := 1, content := "", path := "", line_number := 0
      code_blocks := [], parent := none }

/-- The `parent` pointer of store entry `m` (`none` when out of range). -/
def nparent (nodes : List Node) (m : Nat) : Option Nat :=
  match nodes.get? m with
  | some n => n.parent
  | none => none

/-- Indices of the children of store entry `j`, in creation order (the
order in which Python appended them to `parent.subsections`). -/
def childIdxs (nodes : List Node) (j : Nat) : List Nat :=
  (List.range nodes.length).filter (fun m => decide (nparent nodes m = some j))

/-- Indices of the top-level sections, in creation order (the order in
which Python appended them to `self.sections`). -/
def rootIdxs (nodes : List Node) : List Nat :=
  (List.range nodes.length).filter (fun m => decide (nparent nodes m = none))

/-- Rebuild the `Section` value rooted at store index `j`.  The fuel only
bounds the recursion depth; since a child is always created after its
parent, `nodes.length` fuel is more than any chain of `parent` pointers
can consume. -/
def buildSectionF (nodes : List Node) : Nat → Nat → Section
  | 0, j =>
    let n := nodeAt nodes j
    .mk n.title (SectionLevel.fromValue n.level) n.content n.path n.line_number
      n.code_blocks .nil
  | f+1, j =>
    let n := nodeAt nodes j
    .mk n.title (SectionLevel.fromValue n.level) n.content n.path n.line_number
      n.code_blocks
      (SectionList.ofList ((childIdxs nodes j).map (buildSectionF nodes f)))

/-- The final `self.sections` list: the trees rooted at the top-level
sections. -/
def buildForest (nodes : List Node) : List Section :=
  (rootIdxs nodes).map (buildSectionF nodes nodes.length)

end ForgeDocParser

/-! ### `_flatten_sections` -/

mutual
/-- Pre-order traversal of one section: itself, then its flattened
subsections. -/
def Section.flatten : Section → List Section
  | .mk t l c p n cbs subs => .mk t l c p n cbs subs :: SectionList.flattenL subs
/-- Pre-order traversal of a subsection list. -/
def SectionList.flattenL : SectionList → List Section
  | .nil => []
  | .cons s rest => Section.flatten s ++ SectionList.flattenL rest
end

/-- `ForgeDocParser._flatten_sections(sections)`: for each section, itself
followed by its recursively flattened subsections. -/
def flatten_sections : List Section → List Section
  | [] => []
  | s :: rest => Section.flatten s ++ flatten_sections rest

namespace ForgeDocParser

/-! ### `_extract_api_entries` -/

/-- Python `\w` on the ASCII range: letters, digits, underscore. -/
def wordChar (c : Char) : Bool := c.isAlphanum || c = '_'

/-- Greedy `(\w+)` at the head of the character list (`none` when empty). -/
def takeWord (cs : List Char) : Option String :=
  let w := cs.takeWhile wordChar
  if w.isEmpty then none else some (String.mk w)

/-- Try one alternative `<literal>(\w+)` at the current position. -/
def tryAlt (pre : String) (cs : List Char) : Option String :=
  if isPrefixB pre.data cs then takeWord (cs.drop pre.data.length) else none

/-- `re.search(r'Creating a (\w+)|class (\w+)', title)`: leftmost match,
trying the `Creating a` alternative before the `class` alternative at each
position; yields `group(1) or group(2)`. -/
def searchClassName : List Char → Option String
  | [] => none
  | c :: rest =>
    match tryAlt "Creating a " (c :: rest) with
    | some w => some w
    | none =>
      match tryAlt "class " (c :: rest) with
      | some w => some w
      | none => searchClassName rest

/-- `section.content.split('\n')[0]`. -/
def firstLine (s : String) : String := (pySplit s '\n').headD ""

/-- `_extract_api_entries`: for every flattened section whose title
contains `"class"` (case-insensitively) or `"Creating a"` (literally), try
the class-name pattern on the title and register an `APIEntry` on
success. -/
def extractApiEntries (flat : List Section) : List (String × APIEntry) :=
  flat.foldl
    (fun d s =>
      if pyIn "class" (pyLower s.title) || pyIn "Creating a" s.title then
        match searchClassName s.title.data with
        | some class_name =>
          dictUpsert d class_name
            { name := class_name, type := "class"
              description := firstLine s.content
              parameters := [], returns := none, examples := []
              section_path := s.path }
        | none => d
      else d)
    []

/-- Assemble the `ParsedDoc` returned by `parse_document` (lines 66–79):
rebuild the forest, flatten it into the path map (later duplicates
overwrite earlier ones), and extract API entries. -/
def buildDoc (st : PState) : ParsedDoc :=
  let sections := buildForest st.nodes
  let flat := flatten_sections sections
  { sections := sections
    sections_by_path := flat.foldl (fun d s => dictUpsert d s.path s) []
    all_code_blocks := st.code_blocks
    api_entries := extractApiEntries flat }

/-- The `while` loop of `parse_document`, driven by fuel.  Every iteration
advances `i` by at least one, so `lines.length + 1` fuel always reaches the
`none` case of `parseStep`. -/
def parseLoop (lines : List String) : Nat → Nat → PState → ParsedDoc
  | 0, _, st => buildDoc st
  | fuel+1, i, st =>
    match parseStep lines i st with
    | none => buildDoc st
    | some (i', st') => parseLoop lines fuel i' st'

/-- `ForgeDocParser.parse_document(content)`. -/
def parse_document (content : String) : ParsedDoc :=
  let lines := pySplit content '\n'
  parseLoop lines (lines.length + 1) 0 { nodes := [], stack := [], code_blocks := [] }

/-! ### Invariants of the parser state -/

/-- Every stack entry points at a store node carrying the cached level. -/
def StackOk (stack : List StackEntry) (nodes : List Node) : Prop :=
  ∀ e ∈ stack, ∃ n, nodes.get? e.idx = some n ∧ n.level = e.level

/-- Node levels are header levels (`1..3`) and every `parent` pointer
leads to a node of strictly smaller level. -/
def NodesInv (nodes : List Node) : Prop :=
  ∀ m nm, nodes.get? m = some nm →
    1 ≤ nm.level ∧ nm.level ≤ 3
      ∧ ∀ j, nm.parent = some j →
          ∃ nj, nodes.get? j = some nj ∧ nj.level < nm.level

/-- The parse-loop invariant. -/
def Inv (st : PState) : Prop := StackOk st.stack st.nodes ∧ NodesInv st.nodes

end ForgeDocParser

/-! ## The query operations (`server.py`)

Each tool body is modelled as a pure function of the loaded `ParsedDoc`
and its arguments (the `if not PARSED_DOC` guard, logging and the
`except` wrappers belong to the transport shell). -/

/-- `get_section(path)` (server.py lines 105–116). -/
def get_section (doc : ParsedDoc) (path : String) : String :=
  match dictGet doc.sections_by_path path with
  | some s => s.get_full_content true
  | none =>
    let similar_paths :=
      (dictKeys doc.sections_by_path).filter (fun p => pyIn (pyLower path) (pyLower p))
    if similar_paths.isEmpty then "Section not found: " ++ path
    else
      "Section not found. Did you mean one of these?\n"
        ++ joinWith "\n" ((similar_paths.take 5).map (fun p => "- " ++ p))

/-- The per-block condition of `get_code_examples` (server.py lines
134–143): topic in the lowered body or lowered owning path, and — only
when `language` is *truthy*, i.e. supplied and nonempty — a
case-insensitive equality test on the language tag. -/
def codeExampleKeep (topic_lower : String) (language : Option String)
    (cb : CodeBlock) : Bool :=
  (pyIn topic_lower (pyLower cb.code) || pyIn topic_lower (pyLower cb.context_section))
    && (match language with
        | none => true
        | some l => if l = "" then true else decide (pyLower cb.language = pyLower l))

/-- Rendering of the matches of `get_code_examples` (lines 145–155): the
first 10 matches as `**From section:** <path>\n\n<str(block)>` joined by
blank lines, or the no-results message. -/
def renderCodeExamples (topic : String) (relevant_examples : List CodeBlock) : String :=
  if relevant_examples.isEmpty then "No code examples found for '" ++ topic ++ "'"
  else
    joinWith "\n\n"
      ((relevant_examples.take 10).map
        (fun ex => "**From section:** " ++ ex.context_section ++ "\n\n" ++ ex.str))

/-- `get_code_examples(topic, language=None)`. -/
def get_code_examples (doc : ParsedDoc) (topic : String)
    (language : Option String) : String :=
  renderCodeExamples topic
    (doc.all_code_blocks.filter (codeExampleKeep (pyLower topic) language))

/-- The trigger condition of the method-narrowing loop in `get_api_info`
(line 187): the lowered line contains the lowered method name AND the raw
line contains `##` or `###`. -/
def methodTrigger (method_lower : String) (line : String) : Bool :=
  pyIn method_lower (pyLower line) && (pyIn "##" line || pyIn "###" line)

/-- `line.strip().startswith('#')` — the loop's break condition. -/
def isHeaderish (line : String) : Bool := pyStartsWith (pyStrip line) "#"

/-- The `for line in lines:` narrowing loop of `get_api_info` (lines
183–193): a trigger line (re-)starts capture and is itself captured; once
capturing, a non-trigger line whose strip starts with `#` breaks; every
other line seen while capturing is captured.  `acc` is `method_section`
in reverse. -/
def narrowLoop (method_lower : String) :
    List String → Bool → List String → List String
  | [], _, acc => acc.reverse
  | l :: ls, capturing, acc =>
    if methodTrigger method_lower l then narrowLoop method_lower ls true (l :: acc)
    else if capturing && isHeaderish l then acc.reverse
    else if capturing then narrowLoop method_lower ls true (l :: acc)
    else narrowLoop method_lower ls false acc

/-- Rendering of a found API entry (lines 201–211). -/
def renderApiEntry (doc : ParsedDoc) (e : APIEntry) : String :=
  let text := "# " ++ e.name ++ "\n\n" ++ "Type: " ++ e.type ++ "\n\n"
    ++ e.description ++ "\n\n"
  if e.section_path = "" then text
  else
    match dictGet doc.sections_by_path e.section_path with
    | some s => text ++ s.get_full_content true
    | none => text

/-- `get_api_info(class_name, method_name=None)` (lines 163–213): exact
API-entry lookup first; on a miss, scan the path map's values for the
first section whose lowered title contains the lowered class name, render
its full content, and — when `method_name` is truthy (supplied and
nonempty) — narrow it with `narrowLoop`, keeping the full text when the
loop captured nothing. -/
def get_api_info (doc : ParsedDoc) (class_name : String)
    (method_name : Option String) : String :=
  match dictGet doc.api_entries class_name with
  | some api_entry => renderApiEntry doc api_entry
  | none =>
    match (dictValues doc.sections_by_path).find?
        (fun s => pyIn (pyLower class_name) (pyLower s.title)) with
    | some s =>
      let text := s.get_full_content true
      (match method_name with
       | none => text
       | some m =>
         if m = "" then text
         else
           let method_section := narrowLoop (pyLower m) (pySplit text '\n') false []
           if method_section.isEmpty then text
           else joinWith "\n" method_section)
    | none => "No API documentation found for '" ++ class_name ++ "'"

/-! ## Definitions taken from the specification's wording

These are *not* translations of the source; they state what the spec's
sentences claim, to be compared with the code model above. -/

/-- Modelled from the spec (claim C3): the narrowed run starts at the
first line that both case-insensitively contains the method name and
contains a level-2/3 marker, and ends just before the next line whose
strip starts with `#`. -/
def claimNarrowRun (method_lower : String) : List String → List String
  | [] => []
  | l :: ls =>
    if methodTrigger method_lower l then l :: ls.takeWhile (fun x => !isHeaderish x)
    else claimNarrowRun method_lower ls

/-- The amended narrowing run: a later header line that itself satisfies
the trigger does *not* end the run; the run ends just before the first
subsequent non-trigger line whose strip starts with `#`. -/
def amendedNarrowRun (method_lower : String) : List String → List String
  | [] => []
  | l :: ls =>
    if methodTrigger method_lower l then
      l :: ls.takeWhile (fun x => methodTrigger method_lower x || !isHeaderish x)
    else amendedNarrowRun method_lower ls

/-- The narrowing result claim C3 predicts for a rendered text: the joined
claimed run, or the unnarrowed text when no run exists. -/
def claimNarrowResult (method_lower text : String) : String :=
  let run := claimNarrowRun method_lower (pySplit text '\n')
  if run.isEmpty then text else joinWith "\n" run

/-- The narrowing result after the amendment. -/
def amendedNarrowResult (method_lower text : String) : String :=
  let run := amendedNarrowRun method_lower (pySplit text '\n')
  if run.isEmpty then text else joinWith "\n" run

/-- Modelled from the spec (claim C7): the block filter with the
language-tag equality applied *whenever* a language is supplied. -/
def claimCodeKeep (topic_lower : String) (language : Option String)
    (cb : CodeBlock) : Bool :=
  (pyIn topic_lower (pyLower cb.code) || pyIn topic_lower (pyLower cb.context_section))
    && (match language with
        | none => true
        | some l => decide (pyLower cb.language = pyLower l))

/-- Claim C7's version of `get_code_examples`. -/
def claimCodeExamples (doc : ParsedDoc) (topic : String)
    (language : Option String) : String :=
  renderCodeExamples topic
    (doc.all_code_blocks.filter (claimCodeKeep (pyLower topic) language))

/-- The hierarchy invariant of claim C2: every subsection's level value is
strictly greater than that of the section owning it, recursively. -/
inductive TreeOk : Section → Prop
  | mk (s : Section)
      (hlt : ∀ t ∈ s.subs, s.level.value < t.level.value)
      (hrec : ∀ t ∈ s.subs, TreeOk t) : TreeOk s

/-- `TreeOk` for every tree of a forest. -/
def ForestOk (l : List Section) : Prop := ∀ s ∈ l, TreeOk s

/-! ## Concrete inputs used by witnesses -/

/-- A top-level section whose content is exactly 201 characters. -/
def sec201 : Section :=
  .mk "Totals" .MAIN (String.mk (List.replicate 201 'a')) "Totals" 0 [] .nil

/-- A document holding only `sec201`. -/
def doc201 : ParsedDoc :=
  { sections := [sec201], sections_by_path := [("Totals", sec201)]
    all_code_blocks := [], api_entries := [] }

def secAlpha : Section := .mk "Alpha" .MAIN "" "Alpha" 0 [] .nil
def secBeta : Section := .mk "Beta" .MAIN "" "Beta" 1 [] .nil
def secAlphabet : Section := .mk "Alphabet" .MAIN "" "Alphabet" 2 [] .nil

/-- A document with two sections matching the query `"alpha"` and one
that does not. -/
def docAlpha : ParsedDoc :=
  { sections := [secAlpha, secBeta, secAlphabet]
    sections_by_path := [("Alpha", secAlpha), ("Beta", secBeta), ("Alphabet", secAlphabet)]
    all_code_blocks := [], api_entries := [] }

/-- A document whose path map has the two paths of the spec's
`get_section` example, and not the requested `"Foo/Bar"`. -/
def docFooBar : ParsedDoc :=
  { sections := [], all_code_blocks := [], api_entries := []
    sections_by_path :=
      [("Foo/Barbaz", .mk "Barbaz" .SUB "" "Foo/Barbaz" 1 [] .nil),
       ("Other/Foo/Bar", .mk "Bar" .DETAIL "" "Other/Foo/Bar" 2 [] .nil)] }

/-- The parse of the C3 counterexample document: a `Widget` section with a
`connect` subsection and a `connect_async` sub-subsection. -/
def docWidget : ParsedDoc :=
  ForgeDocParser.parse_document "# Widget\n## connect\nbody\n### connect_async\nmore"

/-- The section `get_api_info`'s title scan finds for `"Widget"` in
`docWidget`. -/
def secWidget : Section :=
  ((dictValues docWidget.sections_by_path).find?
    (fun t => pyIn (pyLower "Widget") (pyLower t.title))).getD emptySection

/-- The parse of a one-block document whose code block is tagged
`javascript` and mentions `connect`. -/
def docJs : ParsedDoc :=
  ForgeDocParser.parse_document "# S\n```javascript\nconnect here\n```"

/-- A mid-parse state with one open section, used by the C9 witness. -/
def st9 : ForgeDocParser.PState :=
  { nodes := [{ title := "A", level := 1, content := "", path := "A"
                line_number := 0, code_blocks := [], parent := none }]
    stack := [⟨0, "A", 1, "A"⟩]
    code_blocks := [] }

/-! # Proofs
    Lemmas about `ParsedDoc.search` -/

theorem searchLoop_take (ql : String) (n : Nat) (l : List Section) :
    ∀ acc : List SearchResult, acc.length < n →
      searchLoop ql (n : Int) l acc
        = acc.reverse
            ++ ((l.filter (searchMatches ql)).take (n - acc.length)).map searchEntry := by
  induction l with
  | nil => intro acc _; simp [searchLoop]
  | cons s rest ih =>
    intro acc hacc
    rw [searchLoop]
    by_cases hm : searchMatches ql s = true
    · rw [if_pos hm, List.filter_cons_of_pos hm]
      by_cases hn : n ≤ acc.length + 1
      · have hcond : (n : Int) ≤ (((searchEntry s :: acc).length : Nat) : Int) := by
          simp only [List.length_cons]
          omega
        have harith : n - acc.length = 1 := by omega
        rw [if_pos hcond, harith]
        simp
      · have hcond : ¬ ((n : Int) ≤ (((searchEntry s :: acc).length : Nat) : Int)) := by
          simp only [List.length_cons]
          push_cast
          omega
        have harith : n - acc.length = (n - (acc.length + 1)) + 1 := by omega
        rw [if_neg hcond, ih (searchEntry s :: acc) (by simp only [List.length_cons]; omega),
          harith, List.take_succ_cons]
        simp
    · rw [if_neg hm, List.filter_cons_of_neg (by simpa using hm), ih acc hacc]

theorem search_take (doc : ParsedDoc) (q : String) (mr : Int) (h : 1 ≤ mr) :
    doc.search q mr
      = ((doc.sections.filter (searchMatches (pyLower q))).take mr.toNat).map searchEntry := by
  have h0 : ((mr.toNat : Nat) : Int) = mr := Int.toNat_of_nonneg (by omega)
  have h1 : (0 : Nat) < mr.toNat := by omega
  have h2 := searchLoop_take (pyLower q) mr.toNat doc.sections [] h1
  simp only [List.length_nil, Nat.sub_zero, List.reverse_nil, List.nil_append] at h2
  unfold ParsedDoc.search
  rw [← h0]
  exact h2

theorem searchLoop_nonpos (ql : String) (mr : Int) (h : mr ≤ 0) (l : List Section) :
    searchLoop ql mr l [] = ((l.filter (searchMatches ql)).take 1).map searchEntry := by
  induction l with
  | nil => simp [searchLoop]
  | cons s rest ih =>
    rw [searchLoop]
    by_cases hm : searchMatches ql s = true
    · have hcond : mr ≤ (((searchEntry s :: ([] : List SearchResult)).length : Nat) : Int) := by
        simp only [List.length_cons, List.length_nil]
        omega
      rw [if_pos hm, if_pos hcond, List.filter_cons_of_pos hm, List.take_succ_cons]
      simp
    · rw [if_neg hm, List.filter_cons_of_neg (by simpa using hm), ih]

theorem search_characterization (doc : ParsedDoc) (q : String) (mr : Int) :
    ∃ n : Nat, doc.search q mr
      = ((doc.sections.filter (searchMatches (pyLower q))).take n).map searchEntry := by
  rcases le_or_lt mr 0 with h | h
  · exact ⟨1, searchLoop_nonpos (pyLower q) mr h doc.sections⟩
  · exact ⟨mr.toNat, search_take doc q mr (by omega)⟩

/-! ## Claims C6, C10, C4 -/

/-- C6: `search(query, max_results)` matches the query case-insensitively
against the title or content of the top-level sections only, visits them
in document order, and collects exactly the first `max_results` matches
(possibly fewer, possibly none), each rendered by `searchEntry`. -/
theorem c6_search_semantics (doc : ParsedDoc) (q : String) (mr : Int) (h : 1 ≤ mr) :
    doc.search q mr
      = ((doc.sections.filter (searchMatches (pyLower q))).take mr.toNat).map searchEntry :=
  search_take doc q mr h

/-- Witness for C6 on a concrete document: two of three sections match
`"alpha"` and `max_results = 1` keeps only the first. -/
theorem c6_search_semantics_witness :
    (1 : Int) ≤ 1 ∧
      docAlpha.search "alpha" 1
        = ((docAlpha.sections.filter (searchMatches (pyLower "alpha"))).take
            (1 : Int).toNat).map searchEntry :=
  ⟨by decide, c6_search_semantics docAlpha "alpha" 1 (by decide)⟩

/-- C10: when `max_results` is zero or negative and some top-level section
matches, `search` still returns exactly the first match, because the
cutoff `len(results) >= max_results` is only tested after an append. -/
theorem c10_nonpositive_max (doc : ParsedDoc) (q : String) (mr : Int) (s : Section)
    (hmr : mr ≤ 0)
    (hs : (doc.sections.filter (searchMatches (pyLower q))).head? = some s) :
    doc.search q mr = [searchEntry s] := by
  unfold ParsedDoc.search
  rw [searchLoop_nonpos (pyLower q) mr hmr doc.sections]
  cases hfil : doc.sections.filter (searchMatches (pyLower q)) with
  | nil => rw [hfil] at hs; simp at hs
  | cons a t =>
    rw [hfil] at hs
    simp only [List.head?_cons, Option.some.injEq] at hs
    subst hs
    simp [List.take_succ_cons]

/-- Witness for C10: `max_results = -2` on a document with two matches
still returns the first match. -/
theorem c10_nonpositive_max_witness :
    (-2 : Int) ≤ 0 ∧
      (docAlpha.sections.filter (searchMatches (pyLower "alpha"))).head? = some secAlpha ∧
      docAlpha.search "alpha" (-2) = [searchEntry secAlpha] :=
  ⟨by decide, rfl, c10_nonpositive_max docAlpha "alpha" (-2) secAlpha (by decide) rfl⟩

/-- C4: every entry `search` emits comes from a matching top-level
section, and at the truncation boundary: content of exactly 201 characters
gives a preview of the first 200 characters plus a literal `"..."`, while
content of exactly 200 characters is passed through unchanged. -/
theorem c4_preview_boundary (doc : ParsedDoc) (q : String) (mr : Int)
    (e : SearchResult) (he : e ∈ doc.search q mr) :
    ∃ s : Section, s ∈ doc.sections ∧ searchMatches (pyLower q) s = true
      ∧ e = searchEntry s
      ∧ (pyLen s.content = 201 → e.preview = pyTake s.content 200 ++ "...")
      ∧ (pyLen s.content = 200 → e.preview = s.content) := by
  obtain ⟨n, hn⟩ := search_characterization doc q mr
  rw [hn] at he
  obtain ⟨s, hs_take, rfl⟩ := List.mem_map.mp he
  have hs_filter := List.take_subset _ _ hs_take
  obtain ⟨hs_mem, hs_match⟩ := List.mem_filter.mp hs_filter
  refine ⟨s, hs_mem, hs_match, rfl, ?_, ?_⟩
  · intro h201
    simp [searchEntry, h201]
  · intro h200
    simp [searchEntry, h200]

set_option maxRecDepth 8000 in
/-- Witness for C4: the 201-character section of `doc201` is matched by
the empty query and its preview gets truncated with `"..."`. -/
theorem c4_preview_boundary_witness :
    searchEntry sec201 ∈ doc201.search "" 5 ∧
      (∃ s : Section, s ∈ doc201.sections ∧ searchMatches (pyLower "") s = true
        ∧ searchEntry sec201 = searchEntry s
        ∧ (pyLen s.content = 201 →
            (searchEntry sec201).preview = pyTake s.content 200 ++ "...")
        ∧ (pyLen s.content = 200 → (searchEntry sec201).preview = s.content)) :=
  ⟨by decide, c4_preview_boundary doc201 "" 5 (searchEntry sec201) (by decide)⟩

/-! ## Claim C7 -/

/-- Counterexample to C7 as stated: with the supplied language `""` the
truthiness test `if language and ...` skips the filter, so the
`javascript` block mentioning the topic is returned even though its tag
does not equal the supplied language. -/
theorem c7_counterexample :
    get_code_examples docJs "connect" (some "")
      ≠ claimCodeExamples docJs "connect" (some "") := by decide

/-- C7 (amended: the language filter is applied when the supplied language
is *nonempty*): `get_code_examples` keeps exactly the blocks of the global
list whose body or owning path contains the topic case-insensitively and
whose tag case-insensitively equals a supplied nonempty language, in
document order, rendering at most 10. -/
theorem c7_language_filter (doc : ParsedDoc) (topic : String) (l : String)
    (h : l ≠ "") :
    get_code_examples doc topic (some l) = claimCodeExamples doc topic (some l)
      ∧ get_code_examples doc topic none = claimCodeExamples doc topic none := by
  constructor
  · unfold get_code_examples claimCodeExamples
    congr 1
    apply List.filter_congr
    intro cb _
    simp [codeExampleKeep, claimCodeKeep, h]
  · rfl

/-- Witness for C7 on `docJs`: with language `"python"` the `javascript`
block is excluded exactly as the claim predicts. -/
theorem c7_language_filter_witness :
    ("python" : String) ≠ "" ∧
      (get_code_examples docJs "connect" (some "python")
          = claimCodeExamples docJs "connect" (some "python")
        ∧ get_code_examples docJs "connect" none
          = claimCodeExamples docJs "connect" none) :=
  ⟨by decide, c7_language_filter docJs "connect" "python" (by decide)⟩

/-! ## Claim C8 -/

/-- C8: on a missed path, `get_section` answers with at most 5 suggested
paths, each containing the request as a case-insensitive substring (a
suggestion message, never section content), and reports not-found when no
path contains it. -/
theorem c8_suggestions (doc : ParsedDoc) (path : String)
    (h : dictGet doc.sections_by_path path = none) :
    (∃ sims : List String,
        get_section doc path
          = "Section not found. Did you mean one of these?\n"
              ++ joinWith "\n" (sims.map (fun p => "- " ++ p))
          ∧ sims.length ≤ 5 ∧ sims ≠ []
          ∧ ∀ p ∈ sims, pyIn (pyLower path) (pyLower p) = true)
      ∨ ((∀ p ∈ dictKeys doc.sections_by_path, pyIn (pyLower path) (pyLower p) = false)
          ∧ get_section doc path = "Section not found: " ++ path) := by
  have hg : get_section doc path
      = (if ((dictKeys doc.sections_by_path).filter
              (fun p => pyIn (pyLower path) (pyLower p))).isEmpty
          then "Section not found: " ++ path
          else "Section not found. Did you mean one of these?\n"
            ++ joinWith "\n"
                ((((dictKeys doc.sections_by_path).filter
                    (fun p => pyIn (pyLower path) (pyLower p))).take 5).map
                  (fun p => "- " ++ p))) := by
    unfold get_section
    rw [h]
  cases hfil : (dictKeys doc.sections_by_path).filter
      (fun p => pyIn (pyLower path) (pyLower p)) with
  | nil =>
    rw [hfil] at hg
    right
    refine ⟨?_, by simpa using hg⟩
    intro p hp
    have h2 := List.filter_eq_nil_iff.mp hfil p hp
    simpa using h2
  | cons a t =>
    rw [hfil] at hg
    left
    refine ⟨(a :: t).take 5, by simpa using hg, ?_, ?_, ?_⟩
    · rw [List.length_take]
      omega
    · rw [List.take_succ_cons]
      exact List.cons_ne_nil _ _
    · intro p hp
      have hmem : p ∈ a :: t := List.take_subset 5 (a :: t) hp
      rw [← hfil] at hmem
      exact (List.mem_filter.mp hmem).2

/-- Witness for C8 on the spec's example: `"Foo/Bar"` is missing while
`"Foo/Barbaz"` and `"Other/Foo/Bar"` exist. -/
theorem c8_suggestions_witness :
    dictGet docFooBar.sections_by_path "Foo/Bar" = none ∧
      ((∃ sims : List String,
          get_section docFooBar "Foo/Bar"
            = "Section not found. Did you mean one of these?\n"
                ++ joinWith "\n" (sims.map (fun p => "- " ++ p))
            ∧ sims.length ≤ 5 ∧ sims ≠ []
            ∧ ∀ p ∈ sims, pyIn (pyLower "Foo/Bar") (pyLower p) = true)
        ∨ ((∀ p ∈ dictKeys docFooBar.sections_by_path,
              pyIn (pyLower "Foo/Bar") (pyLower p) = false)
            ∧ get_section docFooBar "Foo/Bar" = "Section not found: " ++ "Foo/Bar")) :=
  ⟨rfl, c8_suggestions docFooBar "Foo/Bar" rfl⟩

/-! ## Lemmas about line classification and the parse loop -/

namespace ForgeDocParser

theorem dropWhile_append_last (p : Char → Bool) (xs : List Char) (c : Char)
    (hc : p c = false) :
    (xs ++ [c]).dropWhile p = xs.dropWhile p ++ [c] := by
  induction xs with
  | nil => simp [List.dropWhile_cons, hc]
  | cons x xs ih =>
    by_cases hx : p x = true
    · simp [List.dropWhile_cons, hx, ih]
    · simp [List.dropWhile_cons, hx]

theorem pyStrip_head (s : String) (c : Char) (u : List Char)
    (hs : s.data = c :: u) (hc : pySpace c = false) :
    ∃ v, (pyStrip s).data = c :: v := by
  refine ⟨(u.reverse.dropWhile pySpace).reverse, ?_⟩
  show ((s.data.dropWhile pySpace).reverse.dropWhile pySpace).reverse = _
  rw [hs]
  rw [show (c :: u).dropWhile pySpace = c :: u by simp [List.dropWhile_cons, hc]]
  rw [List.reverse_cons, dropWhile_append_last pySpace u.reverse c hc]
  simp

theorem countHashes_head (line : String) (h : 1 ≤ countHashes line) :
    ∃ u, line.data = '#' :: u := by
  unfold countHashes at h
  cases hd : line.data with
  | nil => rw [hd] at h; simp at h
  | cons c u =>
    rw [hd] at h
    by_cases hc : c = '#'
    · exact ⟨u, by rw [hc]⟩
    · rw [List.takeWhile_cons] at h
      simp [hc] at h

theorem hash_head_not_fence (line : String) (h : 1 ≤ countHashes line) :
    isFenceLine line = false := by
  obtain ⟨u, hu⟩ := countHashes_head line h
  obtain ⟨v, hv⟩ := pyStrip_head line '#' u hu (by decide)
  unfold isFenceLine pyStartsWith
  rw [show ("```" : String).data = '`' :: '`' :: '`' :: [] from rfl, hv]
  show (decide ('`' = '#') && isPrefixB ['`', '`'] v) = false
  simp

theorem headerMatch_count (line : String) (k : Nat) (title : String)
    (h : headerMatch line = some (k, title)) :
    countHashes line = k ∧ 1 ≤ k ∧ k ≤ 3 := by
  unfold headerMatch at h
  split at h
  next hcond =>
    split at h
    next =>
      split at h
      · injection h with h'
        injection h' with h1 h2
        subst h1
        exact ⟨rfl, hcond.1, hcond.2⟩
      · exact absurd h (by simp)
    next => exact absurd h (by simp)
  next => exact absurd h (by simp)

theorem deep_header_no_match (line : String) (h : 4 ≤ countHashes line) :
    headerMatch line = none := by
  unfold headerMatch
  rw [if_neg]
  omega

theorem fence_not_header (line : String) (hf : isFenceLine line = true) :
    headerMatch line = none := by
  cases hh : headerMatch line with
  | none => rfl
  | some kt =>
    obtain ⟨hcount, hk1, _⟩ := headerMatch_count line kt.1 kt.2 (by rw [hh])
    rw [hash_head_not_fence line (by omega)] at hf
    exact absurd hf (by simp)

theorem parseLoop_succ (lines : List String) (fuel i : Nat) (st : ForgeDocParser.PState) :
    ForgeDocParser.parseLoop lines (fuel+1) i st
      = match ForgeDocParser.parseStep lines i st with
        | none => ForgeDocParser.buildDoc st
        | some (i', st') => ForgeDocParser.parseLoop lines fuel i' st' := rfl

theorem parseLoop_past_end (lines : List String) (fuel j : Nat)
    (st : ForgeDocParser.PState) (h : lines.length ≤ j) :
    ForgeDocParser.parseLoop lines fuel j st = ForgeDocParser.buildDoc st := by
  cases fuel with
  | zero => rfl
  | succ f =>
    rw [parseLoop_succ]
    have hnone : lines.get? j = none := List.get?_eq_none.mpr h
    simp only [ForgeDocParser.parseStep, hnone]

theorem listModify_length {α : Type} (f : α → α) :
    ∀ (n : Nat) (l : List α), (ForgeDocParser.listModify f n l).length = l.length := by
  intro n l
  induction l generalizing n with
  | nil => cases n <;> rfl
  | cons x xs ih =>
    cases n with
    | zero => rfl
    | succ m => simp [ForgeDocParser.listModify, ih]

/-! ## Claims C5 and C9 -/

/-- C5: a fence opened at line `i` and never closed afterwards contributes
nothing: the parse of the remaining input returns the document built from
the state as it stood before the fence, so no code block from it reaches
any section's list or the document-wide list, and a `ParsedDoc` is still
returned. -/
theorem c5_unterminated_fence (lines : List String) (fuel i : Nat)
    (st : ForgeDocParser.PState) (line : String)
    (hline : lines.get? i = some line)
    (hf : isFenceLine line = true)
    (hc : ForgeDocParser.findClose (lines.drop (i+1)) = none) :
    ForgeDocParser.parseLoop lines (fuel+1) i st = ForgeDocParser.buildDoc st
      ∧ (ForgeDocParser.parseLoop lines (fuel+1) i st).all_code_blocks
          = st.code_blocks := by
  have hstep : ForgeDocParser.parseStep lines i st = some (lines.length + 1, st) := by
    simp only [ForgeDocParser.parseStep, hline, fence_not_header line hf, hf, hc]
    simp
  have h1 : ForgeDocParser.parseLoop lines (fuel+1) i st = ForgeDocParser.buildDoc st := by
    rw [parseLoop_succ, hstep]
    exact parseLoop_past_end lines fuel (lines.length + 1) st (by omega)
  exact ⟨h1, by rw [h1]; rfl⟩

/-- Witness for C5: a two-line document whose fence is never closed. -/
theorem c5_unterminated_fence_witness :
    (["```python", "x = 1"].get? 0 = some "```python")
      ∧ isFenceLine "```python" = true
      ∧ ForgeDocParser.findClose (["```python", "x = 1"].drop 1) = none
      ∧ (ForgeDocParser.parseLoop ["```python", "x = 1"] 1 0
            { nodes := [], stack := [], code_blocks := [] }
          = ForgeDocParser.buildDoc { nodes := [], stack := [], code_blocks := [] }
        ∧ (ForgeDocParser.parseLoop ["```python", "x = 1"] 1 0
            { nodes := [], stack := [], code_blocks := [] }).all_code_blocks = []) :=
  ⟨rfl, by decide, by decide,
    c5_unterminated_fence ["```python", "x = 1"] 0 0 _ "```python" rfl (by decide) (by decide)⟩

/-- C9: a line with four or more `#` markers never matches the header
pattern; when a section is open the line is folded verbatim (plus a
trailing newline, by `contentStep`) into that section's content, and no
new section is created (the store's length is unchanged). -/
theorem c9_deep_header (lines : List String) (fuel i : Nat)
    (st : ForgeDocParser.PState) (line : String) (top : ForgeDocParser.StackEntry)
    (rest : List ForgeDocParser.StackEntry)
    (hline : lines.get? i = some line)
    (hk : 4 ≤ countHashes line)
    (hstack : st.stack = top :: rest) :
    headerMatch line = none
      ∧ ForgeDocParser.parseLoop lines (fuel+1) i st
          = ForgeDocParser.parseLoop lines fuel (i+1) (ForgeDocParser.contentStep st top line)
      ∧ (ForgeDocParser.contentStep st top line).nodes.length = st.nodes.length := by
  have hnh := deep_header_no_match line hk
  have hnf := hash_head_not_fence line (by omega)
  have hstep : ForgeDocParser.parseStep lines i st
      = some (i+1, ForgeDocParser.contentStep st top line) := by
    simp only [ForgeDocParser.parseStep, hline, hnh, hnf, hstack]
    simp
  refine ⟨hnh, ?_, listModify_length _ _ _⟩
  rw [parseLoop_succ, hstep]

/-- Witness for C9: the line `#### deep` in a state with an open section. -/
theorem c9_deep_header_witness :
    (["#### deep"].get? 0 = some "#### deep")
      ∧ 4 ≤ countHashes "#### deep"
      ∧ st9.stack = ⟨0, "A", 1, "A"⟩ :: []
      ∧ (headerMatch "#### deep" = none
        ∧ ForgeDocParser.parseLoop ["#### deep"] 1 0 st9
            = ForgeDocParser.parseLoop ["#### deep"] 0 1
                (ForgeDocParser.contentStep st9 ⟨0, "A", 1, "A"⟩ "#### deep")
        ∧ (ForgeDocParser.contentStep st9 ⟨0, "A", 1, "A"⟩ "#### deep").nodes.length
            = st9.nodes.length) :=
  ⟨rfl, by decide, rfl,
    c9_deep_header ["#### deep"] 0 0 st9 "#### deep" ⟨0, "A", 1, "A"⟩ [] rfl (by decide) rfl⟩

end ForgeDocParser

/-! ## Claim C3 -/

theorem narrowLoop_capturing (ml : String) (ls : List String) :
    ∀ acc, narrowLoop ml ls true acc
      = acc.reverse ++ ls.takeWhile (fun x => methodTrigger ml x || !isHeaderish x) := by
  induction ls with
  | nil => intro acc; simp [narrowLoop]
  | cons l ls ih =>
    intro acc
    rw [narrowLoop]
    by_cases ht : methodTrigger ml l = true
    · rw [if_pos ht, ih (l :: acc), List.takeWhile_cons]
      simp [ht]
    · rw [if_neg ht]
      by_cases hh : isHeaderish l = true
      · rw [if_pos (by simp [hh] : (true && isHeaderish l) = true), List.takeWhile_cons]
        simp [ht, hh]
      · rw [if_neg (by simp [hh] : ¬ ((true && isHeaderish l) = true)), if_pos rfl,
          ih (l :: acc), List.takeWhile_cons]
        simp [ht, hh]

theorem narrowLoop_amended (ml : String) (ls : List String) :
    narrowLoop ml ls false [] = amendedNarrowRun ml ls := by
  induction ls with
  | nil => rfl
  | cons l ls ih =>
    rw [narrowLoop, amendedNarrowRun]
    by_cases ht : methodTrigger ml l = true
    · rw [if_pos ht, if_pos ht, narrowLoop_capturing ml ls [l]]
      simp
    · rw [if_neg ht, if_neg ht,
        if_neg (by simp : ¬ ((false && isHeaderish l) = true)),
        if_neg (by simp : ¬ (false = true))]
      exact ih

/-- Counterexample to C3 as stated: in `docWidget` the narrowing for
`"connect"` does not stop at the next header line, because the header
`### connect_async` itself contains the method name and a marker and so
re-triggers capture; the result differs from the claimed
run-until-next-header reading. -/
theorem c3_counterexample :
    get_api_info docWidget "Widget" (some "connect")
      ≠ claimNarrowResult (pyLower "connect")
          (get_api_info docWidget "Widget" none) := by decide

/-- C3 (amended: a header line that itself case-insensitively contains the
method name and contains a level-2/3 marker extends the run instead of
ending it, and the method name must be nonempty for narrowing to happen):
when the class is resolved by the title scan and a nonempty `methodName`
is supplied, `get_api_info` returns the joined run starting at the first
trigger line and ending just before the next non-trigger header line, or
the full content when no trigger line exists. -/
theorem c3_method_narrowing (doc : ParsedDoc) (class_name m : String) (s : Section)
    (hm : ¬ (m = ""))
    (hapi : dictGet doc.api_entries class_name = none)
    (hfind : (dictValues doc.sections_by_path).find?
        (fun t => pyIn (pyLower class_name) (pyLower t.title)) = some s) :
    get_api_info doc class_name (some m)
      = amendedNarrowResult (pyLower m) (s.get_full_content true) := by
  unfold get_api_info amendedNarrowResult
  rw [hapi, hfind]
  simp only [if_neg hm]
  rw [narrowLoop_amended]

/-- Witness for C3's amended theorem on `docWidget`. -/
theorem c3_method_narrowing_witness :
    ¬ (("connect" : String) = "")
      ∧ dictGet docWidget.api_entries "Widget" = none
      ∧ (dictValues docWidget.sections_by_path).find?
          (fun t => pyIn (pyLower "Widget") (pyLower t.title)) = some secWidget
      ∧ get_api_info docWidget "Widget" (some "connect")
          = amendedNarrowResult (pyLower "connect") (secWidget.get_full_content true) :=
  ⟨by decide, rfl, rfl,
    c3_method_narrowing docWidget "Widget" "connect" secWidget (by decide) rfl rfl⟩

/-! ## Claim C1 -/

/-- C1 is violated by the code: `_build_path` runs on the *unpopped*
stack (parser.py line 39, popping happens only at lines 47–48), so a
sibling section inherits the popped sibling's title in its path, and a
top-level section created while shallower-than-it sections are still
stacked gets a non-title path.  In `"# A\n## B\n## C"` the section `C` is
a child of `A` but has path `"A/B/C"` instead of `"A/C"`; in
`"## A\n# B"` the top-level section `B` has path `"A/B"` instead of
`"B"`. -/
theorem c1_path_bug :
    ((ForgeDocParser.parse_document "# A\n## B\n## C").sections.map
        (fun s => (s.path, s.subs.map (fun t => (t.title, t.path)))))
      = [("A", [("B", "A/B"), ("C", "A/B/C")])]
    ∧ ((ForgeDocParser.parse_document "## A\n# B").sections.map
        (fun s => (s.title, s.path)))
      = [("A", "A"), ("B", "A/B")]
    ∧ ¬ (∀ s ∈ (ForgeDocParser.parse_document "# A\n## B\n## C").sections,
          ∀ t ∈ s.subs, t.path = s.path ++ "/" ++ t.title)
    ∧ ¬ (∀ s ∈ (ForgeDocParser.parse_document "## A\n# B").sections,
          s.path = s.title) :=
  ⟨by decide, by decide, by decide, by decide⟩

/-! ## Claim C2 -/

namespace ForgeDocParser

theorem listModify_get? {α : Type} (f : α → α) (n : Nat) (l : List α) (j : Nat) :
    (listModify f n l).get? j = if j = n then (l.get? j).map f else l.get? j := by
  induction l generalizing n j with
  | nil => cases n <;> cases j <;> simp [listModify]
  | cons x xs ih =>
    cases n with
    | zero =>
      cases j with
      | zero => simp [listModify]
      | succ jj => simp [listModify]
    | succ nn =>
      cases j with
      | zero => simp [listModify]
      | succ jj =>
        have hred : (listModify f (nn+1) (x :: xs)).get? (jj+1)
            = (listModify f nn xs).get? jj := rfl
        have hred2 : (x :: xs).get? (jj+1) = xs.get? jj := rfl
        rw [hred, hred2, ih nn jj]
        by_cases hj : jj = nn
        · rw [if_pos hj, if_pos (by omega)]
        · rw [if_neg hj, if_neg (by omega)]

theorem NodesInv_modify (nodes : List Node) (h : NodesInv nodes) (f : Node → Node)
    (hf : ∀ n, (f n).level = n.level ∧ (f n).parent = n.parent) (idx : Nat) :
    NodesInv (listModify f idx nodes) := by
  intro m nm hm
  rw [listModify_get?] at hm
  by_cases hmi : m = idx
  · rw [if_pos hmi] at hm
    obtain ⟨n0, hn0, rfl⟩ := Option.map_eq_some'.mp hm
    obtain ⟨h1, h2, h3⟩ := h m n0 hn0
    refine ⟨by rw [(hf n0).1]; exact h1, by rw [(hf n0).1]; exact h2, ?_⟩
    intro j hj
    rw [(hf n0).2] at hj
    obtain ⟨nj, hnj, hlt⟩ := h3 j hj
    by_cases hji : j = idx
    · refine ⟨f nj, ?_, ?_⟩
      · rw [listModify_get?, if_pos hji, hnj]
        rfl
      · rw [(hf nj).1, (hf n0).1]
        exact hlt
    · refine ⟨nj, ?_, ?_⟩
      · rw [listModify_get?, if_neg hji]
        exact hnj
      · rw [(hf n0).1]
        exact hlt
  · rw [if_neg hmi] at hm
    obtain ⟨h1, h2, h3⟩ := h m nm hm
    refine ⟨h1, h2, ?_⟩
    intro j hj
    obtain ⟨nj, hnj, hlt⟩ := h3 j hj
    by_cases hji : j = idx
    · refine ⟨f nj, ?_, ?_⟩
      · rw [listModify_get?, if_pos hji, hnj]
        rfl
      · rw [(hf nj).1]
        exact hlt
    · refine ⟨nj, ?_, ?_⟩
      · rw [listModify_get?, if_neg hji]
        exact hnj
      · exact hlt

theorem StackOk_modify (stack : List StackEntry) (nodes : List Node)
    (h : StackOk stack nodes) (f : Node → Node)
    (hf : ∀ n, (f n).level = n.level) (idx : Nat) :
    StackOk stack (listModify f idx nodes) := by
  intro e he
  obtain ⟨n, hn, hl⟩ := h e he
  by_cases hei : e.idx = idx
  · refine ⟨f n, ?_, ?_⟩
    · rw [listModify_get?, if_pos hei, hn]
      rfl
    · rw [hf n]
      exact hl
  · refine ⟨n, ?_, hl⟩
    rw [listModify_get?, if_neg hei]
    exact hn

theorem Inv_contentStep (st : PState) (top : StackEntry) (line : String)
    (h : Inv st) : Inv (contentStep st top line) := by
  refine ⟨?_, ?_⟩
  · exact StackOk_modify st.stack st.nodes h.1
      (fun n => { n with content := n.content ++ line ++ "\n" }) (fun n => rfl) top.idx
  · exact NodesInv_modify st.nodes h.2
      (fun n => { n with content := n.content ++ line ++ "\n" })
      (fun n => ⟨rfl, rfl⟩) top.idx

theorem Inv_attachBlock (st : PState) (idx : Nat) (cb : CodeBlock)
    (h : Inv st) : Inv (attachBlock st idx cb) := by
  refine ⟨?_, ?_⟩
  · exact StackOk_modify st.stack st.nodes h.1
      (fun n => { n with code_blocks := n.code_blocks ++ [cb] }) (fun n => rfl) idx
  · exact NodesInv_modify st.nodes h.2
      (fun n => { n with code_blocks := n.code_blocks ++ [cb] })
      (fun n => ⟨rfl, rfl⟩) idx

theorem Inv_fenceStep (st : PState) (i : Nat) (line : String)
    (codeLines : List String) (h : Inv st) : Inv (fenceStep st i line codeLines) := by
  unfold fenceStep
  cases hst : st.stack with
  | nil => exact h
  | cons top rest => exact Inv_attachBlock st top.idx _ h

theorem Inv_headerStep (st : PState) (i k : Nat) (title : String)
    (h : Inv st) (hk1 : 1 ≤ k) (hk3 : k ≤ 3) : Inv (headerStep st i k title) := by
  obtain ⟨hs, hn⟩ := h
  have hget_lt : ∀ (m : Nat) (nm : Node), st.nodes.get? m = some nm →
      (st.nodes ++ [newNode st i k title]).get? m = some nm := by
    intro m nm hm
    have hlt : m < st.nodes.length := (List.get?_eq_some.mp hm).1
    rw [List.get?_append hlt]
    exact hm
  constructor
  · -- the new stack: new entry, then the surviving (popped-past) entries
    intro e he
    rcases List.mem_cons.mp he with rfl | he'
    · exact ⟨newNode st i k title, List.get?_concat_length st.nodes _, rfl⟩
    · have he2 : e ∈ st.stack := (List.dropWhile_sublist _).subset he'
      obtain ⟨n, hn0, hl⟩ := hs e he2
      exact ⟨n, hget_lt _ _ hn0, hl⟩
  · -- the new store: old nodes plus the freshly created node
    intro m nm hm
    have hmlt : m < st.nodes.length + 1 := by
      have h0 := (List.get?_eq_some.mp hm).1
      have hlen : (headerStep st i k title).nodes.length = st.nodes.length + 1 := by
        show (st.nodes ++ [newNode st i k title]).length = _
        simp
      omega
    by_cases hmo : m < st.nodes.length
    · rw [show (headerStep st i k title).nodes
          = st.nodes ++ [newNode st i k title] from rfl] at hm
      rw [List.get?_append hmo] at hm
      obtain ⟨h1, h2, h3⟩ := hn m nm hm
      refine ⟨h1, h2, ?_⟩
      intro j hj
      obtain ⟨nj, hnj, hlt⟩ := h3 j hj
      exact ⟨nj, hget_lt _ _ hnj, hlt⟩
    · have hmeq : m = st.nodes.length := by omega
      subst hmeq
      rw [show (headerStep st i k title).nodes
          = st.nodes ++ [newNode st i k title] from rfl] at hm
      rw [List.get?_concat_length] at hm
      injection hm with hm'
      subst hm'
      refine ⟨hk1, hk3, ?_⟩
      intro j hj
      -- the parent index comes from the hierarchy scan of the old stack
      have hj' : hierarchyParent st.stack k = some j := hj
      unfold hierarchyParent at hj'
      obtain ⟨e, he, hej⟩ := Option.map_eq_some'.mp hj'
      have hmem := List.mem_of_find?_eq_some he
      have hp := List.find?_some he
      have hlev : e.level < k := by simpa using hp
      obtain ⟨n0, hn0, hl0⟩ := hs e hmem
      refine ⟨n0, ?_, ?_⟩
      · rw [← hej]
        exact hget_lt _ _ hn0
      · rw [hl0]
        exact hlev

theorem Inv_parseStep (lines : List String) (i : Nat) (st : PState)
    (i' : Nat) (st' : PState) (h : Inv st)
    (hstep : parseStep lines i st = some (i', st')) : Inv st' := by
  cases hline : lines.get? i with
  | none =>
    simp only [parseStep, hline] at hstep
    simp at hstep
  | some line =>
    simp only [parseStep, hline] at hstep
    cases hh : headerMatch line with
    | some kt =>
      obtain ⟨k, title⟩ := kt
      simp only [hh, Option.some.injEq, Prod.mk.injEq] at hstep
      obtain ⟨_, hst'⟩ := hstep
      obtain ⟨_, hk1, hk3⟩ := headerMatch_count line k title hh
      exact hst' ▸ Inv_headerStep st i k title h hk1 hk3
    | none =>
      simp only [hh] at hstep
      by_cases hf : isFenceLine line = true
      · rw [if_pos hf] at hstep
        cases hcl : findClose (lines.drop (i+1)) with
        | some off =>
          simp only [hcl, Option.some.injEq, Prod.mk.injEq] at hstep
          obtain ⟨_, hst'⟩ := hstep
          exact hst' ▸ Inv_fenceStep st i line _ h
        | none =>
          simp only [hcl, Option.some.injEq, Prod.mk.injEq] at hstep
          obtain ⟨_, hst'⟩ := hstep
          exact hst' ▸ h
      · rw [if_neg hf] at hstep
        cases hst : st.stack with
        | nil =>
          simp only [hst, Option.some.injEq, Prod.mk.injEq] at hstep
          obtain ⟨_, hst'⟩ := hstep
          exact hst' ▸ h
        | cons top rest =>
          simp only [hst, Option.some.injEq, Prod.mk.injEq] at hstep
          obtain ⟨_, hst'⟩ := hstep
          exact hst' ▸ Inv_contentStep st top line h

theorem fromValue_value (k : Nat) (h1 : 1 ≤ k) (h3 : k ≤ 3) :
    (SectionLevel.fromValue k).value = k := by
  interval_cases k <;> decide

theorem toList_ofList (l : List Section) : (SectionList.ofList l).toList = l := by
  induction l with
  | nil => rfl
  | cons s rest ih => simp [SectionList.ofList, SectionList.toList, ih]

theorem buildSectionF_subs (nodes : List Node) (f j : Nat) :
    (buildSectionF nodes (f+1) j).subs
      = (childIdxs nodes j).map (buildSectionF nodes f) := by
  show (SectionList.ofList _).toList = _
  exact toList_ofList _

theorem buildSectionF_level (nodes : List Node) (f j : Nat) :
    (buildSectionF nodes f j).level = SectionLevel.fromValue (nodeAt nodes j).level := by
  cases f <;> rfl

theorem childIdxs_parent (nodes : List Node) (j m : Nat) (hm : m ∈ childIdxs nodes j) :
    ∃ nm, nodes.get? m = some nm ∧ nm.parent = some j := by
  have hp0 := List.of_mem_filter hm
  have hp : nparent nodes m = some j := by simpa using hp0
  cases hgm : nodes.get? m with
  | none => unfold nparent at hp; rw [hgm] at hp; exact absurd hp (by simp)
  | some nm =>
    refine ⟨nm, rfl, ?_⟩
    unfold nparent at hp
    rw [hgm] at hp
    exact hp

theorem buildSection_treeOk (nodes : List Node) (h : NodesInv nodes) :
    ∀ f j, TreeOk (buildSectionF nodes f j) := by
  intro f
  induction f with
  | zero =>
    intro j
    refine TreeOk.mk _ ?_ ?_ <;> intro t ht <;>
      exact absurd ht (by simp [buildSectionF, Section.subs, SectionList.toList])
  | succ f ih =>
    intro j
    refine TreeOk.mk _ ?_ ?_
    · intro t ht
      rw [buildSectionF_subs] at ht
      obtain ⟨m, hm, rfl⟩ := List.mem_map.mp ht
      obtain ⟨nm, hgm, hpar⟩ := childIdxs_parent nodes j m hm
      obtain ⟨h1m, h3m, hprop⟩ := h m nm hgm
      obtain ⟨nj, hgj, hlt⟩ := hprop j hpar
      obtain ⟨h1j, h3j, _⟩ := h j nj hgj
      rw [buildSectionF_level, buildSectionF_level]
      have hja : nodeAt nodes j = nj := by unfold nodeAt; rw [hgj]; rfl
      have hma : nodeAt nodes m = nm := by unfold nodeAt; rw [hgm]; rfl
      rw [hja, hma, fromValue_value _ h1j h3j, fromValue_value _ h1m h3m]
      exact hlt
    · intro t ht
      rw [buildSectionF_subs] at ht
      obtain ⟨m, _, rfl⟩ := List.mem_map.mp ht
      exact ih m

theorem buildDoc_forestOk (st : PState) (h : NodesInv st.nodes) :
    ForestOk (buildDoc st).sections := by
  intro s hs
  have hsec : (buildDoc st).sections
      = (rootIdxs st.nodes).map (buildSectionF st.nodes st.nodes.length) := rfl
  rw [hsec] at hs
  obtain ⟨j, _, rfl⟩ := List.mem_map.mp hs
  exact buildSection_treeOk st.nodes h _ j

theorem parseLoop_forestOk (lines : List String) :
    ∀ (fuel i : Nat) (st : PState), Inv st →
      ForestOk (parseLoop lines fuel i st).sections := by
  intro fuel
  induction fuel with
  | zero => intro i st h; exact buildDoc_forestOk st h.2
  | succ f ih =>
    intro i st h
    rw [parseLoop_succ]
    cases hstep : parseStep lines i st with
    | none => exact buildDoc_forestOk st h.2
    | some p =>
      obtain ⟨i', st'⟩ := p
      exact ih i' st' (Inv_parseStep lines i st i' st' h hstep)

end ForgeDocParser

/-- C2: after parsing any document, throughout the whole section forest a
section's level value is strictly greater than that of the section owning
it in its `subsections` list. -/
theorem c2_level_invariant (content : String) :
    ForestOk (ForgeDocParser.parse_document content).sections := by
  apply ForgeDocParser.parseLoop_forestOk
  constructor
  · intro e he
    exact absurd he (List.not_mem_nil e)
  · intro m nm hm
    exact absurd hm (by simp)

/-- Witness for C2 at a concrete nested document. -/
theorem c2_level_invariant_witness :
    ForestOk (ForgeDocParser.parse_document "# A\n## B\n### C").sections :=
  c2_level_invariant "# A\n## B\n### C"

end Forge
